import Mathlib

/-!
Shallow embedding of the AMQP 1.0 binary codec of `serialization.go`.

Readers are modelled as state/error computations over an explicit byte
stream (`List Nat`, each entry one octet); writers are pure functions that
return the emitted bytes.  Machine integers are `Nat`/`Int` with explicit
`% 2^w` where the Go code casts.  Every definition is translated from the
source function of the same name; doc comments cite the source symbol.
-/

namespace AMQP

set_option autoImplicit false

/-- Error values of the codec.  `errNull`, `errLimitReached` and
`errInvalidLength` are the distinguished sentinel errors of the source
(package-level `var`s compared by identity); every `errorNew`/`errorErrorf`
produced error is modelled by `msg`, and an exhausted byte stream
(`io.EOF`/`io.ErrUnexpectedEOF`) by `errEOF`. -/
inductive Err where
  | errNull
  | errLimitReached
  | errInvalidLength
  | errEOF
  | msg (s : String)
deriving DecidableEq, Repr

/-- Reader computations: state `σ` plus the error channel.  `EStateM` keeps
the state at the point of failure, matching Go's multiple-return style where
the reader has advanced even when an error is returned. -/
abbrev RM (σ α : Type) := EStateM Err σ α

/-- The `reader` interface of the source (`io.Reader`, `io.ByteReader`,
`UnreadByte`, `Len`).  `readFull` models `io.ReadFull`/`binary.Read` byte
consumption on the given reader; `unreadByte` takes the byte being pushed
back (at every call site of the source it is the byte just read). -/
class reader (ρ : Type) where
  readByte : RM ρ Nat
  readFull : Nat → RM ρ (List Nat)
  unreadByte : Nat → RM ρ Unit
  remLen : RM ρ Nat

/-- A plain byte stream, the model of `*bytes.Buffer`. -/
abbrev ByteRdr := List Nat

instance byteRdrReader : reader ByteRdr where
  readByte := fun s =>
    match s with
    | [] => .error .errEOF []
    | b :: r => .ok b r
  readFull := fun n s =>
    if n ≤ s.length then .ok (s.take n) (s.drop n) else .error .errEOF []
  unreadByte := fun b s => .ok () (b :: s)
  remLen := fun s => .ok s.length s

/-- The `limitReader` of the source: it embeds the underlying reader (here a
`bytes.Buffer`, i.e. a byte list) and only overrides `Read`.  Consequently
`ReadByte`, `UnreadByte` and `Len` are promoted from the embedded reader and
bypass the limit accounting entirely; only bulk `Read` calls check and
advance `readCnt`. -/
structure limitReader where
  buf : List Nat
  limit : Nat
  readCnt : Nat
deriving DecidableEq, Repr

/-- One `io.ReadFull` over `limitReader.Read` over a `bytes.Buffer`: each
`Read` call first checks `read >= limit` (returning `errLimitReached`), then
drains up to the requested count from the buffer and adds the amount read to
`readCnt`.  `fuel` only bounds the loop; it is instantiated with the request
size, which suffices because every successful `Read` returns at least one
byte. -/
def lreadFullAux : Nat → Nat → limitReader → EStateM.Result Err limitReader (List Nat)
  | _, 0, lr => .ok [] lr
  | 0, _ + 1, lr => .error .errEOF lr
  | fuel + 1, n + 1, lr =>
    if lr.limit ≤ lr.readCnt then .error .errLimitReached lr
    else
      let t := min (n + 1) lr.buf.length
      if t = 0 then .error .errEOF lr
      else
        let taken := lr.buf.take t
        let lr' : limitReader := ⟨lr.buf.drop t, lr.limit, lr.readCnt + t⟩
        if t = n + 1 then .ok taken lr'
        else
          match lreadFullAux fuel (n + 1 - t) lr' with
          | .ok more lr2 => .ok (taken ++ more) lr2
          | .error e lr2 => .error e lr2

instance limitReaderReader : reader limitReader where
  readByte := fun lr =>
    match lr.buf with
    | [] => .error .errEOF lr
    | b :: r => .ok b ⟨r, lr.limit, lr.readCnt⟩
  readFull := fun n lr => lreadFullAux n n lr
  unreadByte := fun b lr => .ok () ⟨b :: lr.buf, lr.limit, lr.readCnt⟩
  remLen := fun lr => .ok lr.buf.length lr

/-- Big-endian value of a byte sequence, as assembled by `binary.Read`. -/
def beVal (bs : List Nat) : Nat :=
  bs.foldl (fun acc b => acc * 256 + b) 0

/-- Big-endian bytes of a `uint16`, as emitted by `binary.Write`. -/
def be16 (n : Nat) : List Nat :=
  [n / 256 % 256, n % 256]

/-- Big-endian bytes of a `uint32`, as emitted by `binary.Write`. -/
def be32 (n : Nat) : List Nat :=
  [n / 2 ^ 24 % 256, n / 2 ^ 16 % 256, n / 2 ^ 8 % 256, n % 256]

/-- Big-endian bytes of a `uint64`, as emitted by `binary.Write`. -/
def be64 (n : Nat) : List Nat :=
  [n / 2 ^ 56 % 256, n / 2 ^ 48 % 256, n / 2 ^ 40 % 256, n / 2 ^ 32 % 256,
   n / 2 ^ 24 % 256, n / 2 ^ 16 % 256, n / 2 ^ 8 % 256, n % 256]

/-- Reinterpret a `uint64` as Go's `int64` (two's complement). -/
def toInt64 (n : Nat) : Int :=
  if n % 2 ^ 64 < 2 ^ 63 then (n % 2 ^ 64 : Int) else (n % 2 ^ 64 : Int) - 2 ^ 64

/-- Reinterpret a byte as Go's `int8` (two's complement), the result of
`binary.Read` into an `int8`. -/
def toInt8 (n : Nat) : Int :=
  if n % 256 < 128 then (n % 256 : Int) else (n % 256 : Int) - 256

/-- Reinterpret a byte pair as Go's `int16`. -/
def toInt16 (n : Nat) : Int :=
  if n % 2 ^ 16 < 2 ^ 15 then (n % 2 ^ 16 : Int) else (n % 2 ^ 16 : Int) - 2 ^ 16

/-- Reinterpret four bytes as Go's `int32`. -/
def toInt32 (n : Nat) : Int :=
  if n % 2 ^ 32 < 2 ^ 31 then (n % 2 ^ 32 : Int) else (n % 2 ^ 32 : Int) - 2 ^ 32

/-- Go's `uint8(v)` cast of an `int`: the low byte, two's complement. -/
def toUint8 (i : Int) : Nat :=
  (i % 256).toNat

variable {ρ : Type}

/-- Source `readUint`: accepts the whole unsigned family, widening to
`uint64`; `Null` raises the `errNull` sentinel. -/
def readUint [reader ρ] : RM ρ Nat := do
  let b ← reader.readByte
  if b = 0x40 then throw .errNull
  else if b = 0x43 ∨ b = 0x44 then pure 0
  else if b = 0x50 ∨ b = 0x52 ∨ b = 0x53 then reader.readByte
  else if b = 0x60 then do
    let bs ← reader.readFull 2
    pure (beVal bs)
  else if b = 0x70 then do
    let bs ← reader.readFull 4
    pure (beVal bs)
  else if b = 0x80 then do
    let bs ← reader.readFull 8
    pure (beVal bs)
  else throw (.msg "type code is not a recognized number type")

/-- Source `readInt`: accepts both integer families; unsigned codes read via
`ReadByte` or `binary.Read` into unsigned widths (zero extension), signed
codes sign extend; `uint64` narrows through Go's `int(n)` wrap.  There is no
`Null` case. -/
def readInt [reader ρ] : RM ρ Int := do
  let b ← reader.readByte
  if b = 0x43 ∨ b = 0x44 then pure 0
  else if b = 0x50 ∨ b = 0x52 ∨ b = 0x53 then do
    let n ← reader.readByte
    pure (Int.ofNat n)
  else if b = 0x60 then do
    let bs ← reader.readFull 2
    pure (Int.ofNat (beVal bs))
  else if b = 0x70 then do
    let bs ← reader.readFull 4
    pure (Int.ofNat (beVal bs))
  else if b = 0x80 then do
    let bs ← reader.readFull 8
    pure (toInt64 (beVal bs))
  else if b = 0x51 ∨ b = 0x54 ∨ b = 0x55 then do
    let bs ← reader.readFull 1
    pure (toInt8 (beVal bs))
  else if b = 0x61 then do
    let bs ← reader.readFull 2
    pure (toInt16 (beVal bs))
  else if b = 0x71 then do
    let bs ← reader.readFull 4
    pure (toInt32 (beVal bs))
  else if b = 0x81 then do
    let bs ← reader.readFull 8
    pure (toInt64 (beVal bs))
  else throw (.msg "type code is not a recognized number type")

/-- Source `readBool`. -/
def readBool [reader ρ] : RM ρ Bool := do
  let b ← reader.readByte
  if b = 0x40 then throw .errNull
  else if b = 0x56 then do
    let v ← reader.readByte
    pure (v ≠ 0)
  else if b = 0x41 then pure true
  else if b = 0x42 then pure false
  else throw (.msg "type code is not a recognized bool type")

/-- Go's `time.Unix(sec, nsec)` normalization of the nanosecond field into
`[0, 1e9)`; `/` on Go integers truncates toward zero (`Int.tdiv`). -/
def goTimeUnix (sec nsec : Int) : Int × Int :=
  if nsec < 0 ∨ 1000000000 ≤ nsec then
    let q := nsec.tdiv 1000000000
    let sec' := sec + q
    let nsec' := nsec - q * 1000000000
    if nsec' < 0 then (sec' - 1, nsec' + 1000000000) else (sec', nsec')
  else (sec, nsec)

/-- The instant denoted by a `(seconds, nanoseconds)` pair, in total
nanoseconds from the Unix epoch. -/
def instantNs (t : Int × Int) : Int :=
  t.1 * 1000000000 + t.2

/-- Source `readTimestamp`: requires code `Timestamp` (`Null` raises the
sentinel), reads eight big-endian bytes into a `uint64` `n`, then returns
`time.Unix(int64(n)/1000, int64(n % 1000)*1000000)` — note that the
remainder is computed on the unsigned `n`. -/
def readTimestamp [reader ρ] : RM ρ (Int × Int) := do
  let b ← reader.readByte
  if b = 0x40 then throw .errNull
  else if b ≠ 0x83 then throw (.msg "invalid type for timestamp")
  else do
    let bs ← reader.readFull 8
    let n := beVal bs
    let rem := n % 1000
    pure (goTimeUnix ((toInt64 n).tdiv 1000) ((Int.ofNat rem) * 1000000))

/-- Source `readVariableType`: dispatch on a variable-length type code,
read the declared length (one byte for the 8-bit codes, four big-endian
bytes for the 32-bit codes), reject a length larger than the remaining
bytes, then consume exactly that many bytes.  `Null` yields an empty
result. -/
def readVariableType [reader ρ] (of : Nat) : RM ρ (List Nat) := do
  if of = 0x40 then pure []
  else if of = 0xa0 ∨ of = 0xa1 ∨ of = 0xa3 then do
    let n ← reader.readByte
    let rem ← reader.remLen
    if rem < n then throw .errInvalidLength
    else reader.readFull n
  else if of = 0xb0 ∨ of = 0xb1 ∨ of = 0xb3 then do
    let bs ← reader.readFull 4
    let n := beVal bs
    let rem ← reader.remLen
    if rem < n then throw .errInvalidLength
    else reader.readFull n
  else throw (.msg "type code is not a recognized variable length type")

/-- Source `readString`: one code byte, then `readVariableType`.  A Go
string is a byte sequence, so the result stays a byte list. -/
def readString [reader ρ] : RM ρ (List Nat) := do
  let b ← reader.readByte
  readVariableType b

/-- Source `readBinary`: identical byte consumption to `readString`. -/
def readBinary [reader ρ] : RM ρ (List Nat) := do
  let b ← reader.readByte
  readVariableType b

/-- Source `readHeaderSlice`: accepts `Null` (sentinel), `List0`,
`List8`/`Array8` (one size byte then one count byte) and `List32`/`Array32`
(two big-endian `uint32`s), returning `(element-count, declared-size)` and
rejecting an element count larger than the remaining bytes. -/
def readHeaderSlice [reader ρ] : RM ρ (Nat × Nat) := do
  let b ← reader.readByte
  let p ←
    if b = 0x40 then throw .errNull
    else if b = 0x45 then pure (0, 0)
    else if b = 0xc0 ∨ b = 0xe0 then do
      let lByte ← reader.readByte
      let elemByte ← reader.readByte
      pure (elemByte, lByte)
    else if b = 0xd0 ∨ b = 0xf0 then do
      let lBytes ← reader.readFull 4
      let elemBytes ← reader.readFull 4
      pure (beVal elemBytes, beVal lBytes)
    else throw (.msg "type code is not a recognized list type")
  let rem ← reader.remLen
  if rem < p.1 then throw .errInvalidLength
  else pure p

/-- Source `readCompositeHeader`: one byte which must be `0x00` (`Null`
raises the sentinel), a descriptor read with `readInt`, then a header slice
for the field count.  The descriptor is narrowed by Go's `amqpType(v)`
cast to its low byte. -/
def readCompositeHeader [reader ρ] : RM ρ (Nat × Nat) := do
  let byt ← reader.readByte
  if byt = 0x40 then throw .errNull
  else if byt ≠ 0 then throw (.msg "invalid composite header")
  else do
    let v ← readInt
    let p ← readHeaderSlice
    pure (toUint8 v, p.1)

/-- Dynamic values produced by `readAny` (the decoded `interface{}`
contents); `nil` is represented by `Option.none` at the use sites. -/
inductive AnyVal where
  | aBool (b : Bool)
  | aUint (n : Nat)
  | aInt (i : Int)
  | aBin (bs : List Nat)
  | aStr (s : List Nat)
  | aTime (sec nsec : Int)
deriving DecidableEq, Repr

/-- Source `readAny`: peek one byte (read then unread), consume it only for
`Null` (returning `nil`), and dispatch on the code.  Floats, decimals,
char, UUID and the compound codes return a not-implemented error; unknown
codes are an error. -/
def readAny [reader ρ] : RM ρ (Option AnyVal) := do
  let b ← reader.readByte
  if b = 0x40 then pure none
  else do
    reader.unreadByte b
    if b = 0x56 ∨ b = 0x41 ∨ b = 0x42 then do
      let v ← readBool
      pure (some (.aBool v))
    else if b = 0x50 ∨ b = 0x60 ∨ b = 0x70 ∨ b = 0x52 ∨ b = 0x43 ∨
             b = 0x80 ∨ b = 0x53 ∨ b = 0x44 then do
      let v ← readUint
      pure (some (.aUint v))
    else if b = 0x51 ∨ b = 0x61 ∨ b = 0x71 ∨ b = 0x54 ∨ b = 0x81 ∨ b = 0x55 then do
      let v ← readInt
      pure (some (.aInt v))
    else if b = 0x72 ∨ b = 0x82 ∨ b = 0x74 ∨ b = 0x84 ∨ b = 0x94 ∨ b = 0x73 ∨
             b = 0x98 ∨ b = 0x45 ∨ b = 0xc0 ∨ b = 0xd0 ∨ b = 0xc1 ∨ b = 0xd1 ∨
             b = 0xe0 ∨ b = 0xf0 then
      throw (.msg "not implemented")
    else if b = 0xa0 ∨ b = 0xb0 then do
      let v ← readBinary
      pure (some (.aBin v))
    else if b = 0xa1 ∨ b = 0xb1 ∨ b = 0xa3 ∨ b = 0xb3 then do
      let v ← readString
      pure (some (.aStr v))
    else if b = 0x83 then do
      let v ← readTimestamp
      pure (some (.aTime v.1 v.2))
    else throw (.msg "unknown type")

/-- Accept range lower bound for the second byte of a multi-byte UTF-8
sequence, per lead byte — Go's `unicode/utf8` `acceptRanges`/`first`
tables. -/
def utf8AcceptLo (lead : Nat) : Nat :=
  if lead = 0xe0 then 0xa0 else if lead = 0xf0 then 0x90 else 0x80

/-- Accept range upper bound for the second byte, per lead byte. -/
def utf8AcceptHi (lead : Nat) : Nat :=
  if lead = 0xed then 0x9f else if lead = 0xf4 then 0x8f else 0xbf

/-- Core of Go's `utf8.ValidString` on the byte sequence of the string.
`pending` holds the accept ranges that the next bytes must satisfy (the
tail of the multi-byte sequence being checked).  With no pending range a
lead byte is classified: ASCII passes; `0x80`–`0xC1` cannot start a
sequence (continuation or overlong); two-, three- and four-byte leads push
their second-byte accept range followed by `0x80`–`0xBF` for the later
continuation bytes; leads above `0xF4` are invalid.  Input ending inside a
sequence fails (the `i+size > n` check of the source). -/
def validUTF8From : List (Nat × Nat) → List Nat → Bool
  | [], [] => true
  | _ :: _, [] => false
  | p :: ps, c :: rest => decide (p.1 ≤ c ∧ c ≤ p.2) && validUTF8From ps rest
  | [], b :: rest =>
    if b < 0x80 then validUTF8From [] rest
    else if b < 0xc2 then false
    else if b < 0xe0 then validUTF8From [(utf8AcceptLo b, utf8AcceptHi b)] rest
    else if b < 0xf0 then
      validUTF8From [(utf8AcceptLo b, utf8AcceptHi b), (0x80, 0xbf)] rest
    else if b < 0xf5 then
      validUTF8From [(utf8AcceptLo b, utf8AcceptHi b), (0x80, 0xbf), (0x80, 0xbf)] rest
    else false

/-- Go's `utf8.ValidString`. -/
def validUTF8 (s : List Nat) : Bool :=
  validUTF8From [] s

/-- Source `writeString`: validate UTF-8, then `Str8` for length < 256,
`Str32` for length < `math.MaxUint32` (that is, < 2^32 − 1), else "too
long".  Casts `uint8(l)` and `uint32(l)` are the explicit mods. -/
def writeString (str : List Nat) : Except Err (List Nat) :=
  if !(validUTF8 str) then .error (.msg "not a valid UTF-8 string")
  else if str.length < 256 then .ok (0xa1 :: str.length % 256 :: str)
  else if str.length < 4294967295 then .ok (0xb1 :: (be32 str.length ++ str))
  else .error (.msg "too long")

/-- Source `writeBinary`: same thresholds as `writeString`, codes
`Vbin8`/`Vbin32`, no UTF-8 validation. -/
def writeBinary (bin : List Nat) : Except Err (List Nat) :=
  if bin.length < 256 then .ok (0xa0 :: bin.length % 256 :: bin)
  else if bin.length < 4294967295 then .ok (0xb0 :: (be32 bin.length ++ bin))
  else .error (.msg "too long")

/-- Source `writeSlice` (shared by `writeList` and `writeArray`): total
payload size from the pre-encoded fields; zero fields is `List0` (an error
for arrays); `count < 256 ∧ size < 256` picks the 8-bit variant with size
byte `uint8(size+1)`; otherwise below `math.MaxUint32` the 32-bit variant
with size `uint32(size+4)`; the array element type code goes after the
count. -/
def writeSlice (isArray : Bool) (of : Nat) (fields : List (List Nat)) : Except Err (List Nat) :=
  let size := (fields.map List.length).sum
  let size8 : Nat := if isArray then 0xe0 else 0xc0
  let size32 : Nat := if isArray then 0xf0 else 0xd0
  if fields.length = 0 then
    if isArray then .error (.msg "invalid array length 0")
    else .ok [0x45]
  else if fields.length < 256 ∧ size < 256 then
    .ok ([size8, (size + 1) % 256, fields.length % 256] ++
      (if isArray then [of % 256] else []) ++ fields.flatten)
  else if fields.length < 4294967295 ∧ size < 4294967295 then
    .ok ([size32] ++ be32 (size + 4) ++ be32 fields.length ++
      (if isArray then [of % 256] else []) ++ fields.flatten)
  else .error (.msg "too many fields")

/-- Source `writeList`. -/
def writeList (fields : List (List Nat)) : Except Err (List Nat) :=
  writeSlice false 0 fields

/-- Source `writeArray`. -/
def writeArray (of : Nat) (fields : List (List Nat)) : Except Err (List Nat) :=
  writeSlice true of fields

/-- Source `writeSymbol`: validate UTF-8, then emit only the length (one
byte for `Sym8`, four for `Sym32`) and the payload — the caller supplies
the element type code. -/
def writeSymbol (sym : List Nat) (typ : Nat) : Except Err (List Nat) :=
  if !(validUTF8 sym) then .error (.msg "not a valid UTF-8 string")
  else if typ = 0xa3 then .ok (sym.length % 256 :: sym)
  else if typ = 0xb3 then .ok (be32 sym.length ++ sym)
  else .error (.msg "invalid symbol type")

/-- The element-encoding loop of `writeSymbolArray`. -/
def writeSymbolElems : List (List Nat) → Nat → Except Err (List (List Nat))
  | [], _ => .ok []
  | s :: rest, typ =>
    match writeSymbol s typ with
    | .error e => .error e
    | .ok b =>
      match writeSymbolElems rest typ with
      | .ok bs => .ok (b :: bs)
      | .error e => .error e

/-- Source `writeSymbolArray`: scan for any symbol longer than
`math.MaxUint8` to pick `Sym8` vs `Sym32` as the array element code, encode
each element without its own code, then `writeArray`. -/
def writeSymbolArray (symbols : List (List Nat)) : Except Err (List Nat) :=
  let ofType : Nat := if symbols.any (fun s => 255 < s.length) then 0xb3 else 0xa3
  match writeSymbolElems symbols ofType with
  | .error e => .error e
  | .ok elems => writeArray ofType elems

/-- Source `Symbol.marshal`: `Sym8` code plus one length byte below 256;
for larger symbols the four-byte length and payload are written but the
`Sym32` type code byte is omitted (a quirk of the source); no UTF-8
validation here. -/
def symbolMarshal (s : List Nat) : Except Err (List Nat) :=
  if s.length < 256 then .ok ([0xa3, s.length % 256] ++ s)
  else if s.length < 4294967295 then .ok (be32 s.length ++ s)
  else .error (.msg "too long")

/-- The value shapes routed by the source `marshal`'s type switch that this
development needs: `Symbol` and the primitive cases. -/
inductive Val where
  | vsym (s : List Nat)
  | vbool (b : Bool)
  | vu64 (n : Nat)
  | vu32 (n : Nat)
  | vu32p (n : Option Nat)
  | vu16 (n : Nat)
  | vu8 (n : Nat)
  | vsymarr (ss : List (List Nat))
  | vstr (s : List Nat)
  | vbin (bs : List Nat)
deriving DecidableEq, Repr

/-- Source `marshal`: route by the static kind of the value.  `Symbol`
goes through its `marshaler` method; `uint32`/`uint64` zero compress to
`Uint0`/`Ulong0`; a nil `*uint32` writes `Null`; `uint16`/`uint8` use their
single codes; the rest delegate to the writers above. -/
def marshal : Val → Except Err (List Nat)
  | .vsym s => symbolMarshal s
  | .vbool true => .ok [0x41]
  | .vbool false => .ok [0x42]
  | .vu64 n => if n = 0 then .ok [0x44] else .ok (0x80 :: be64 n)
  | .vu32 n => if n = 0 then .ok [0x43] else .ok (0x70 :: be32 n)
  | .vu32p none => .ok [0x40]
  | .vu32p (some n) => if n = 0 then .ok [0x43] else .ok (0x70 :: be32 n)
  | .vu16 n => .ok (0x60 :: be16 n)
  | .vu8 n => .ok [0x50, n % 256]
  | .vsymarr ss => writeSymbolArray ss
  | .vstr s => writeString s
  | .vbin bs => writeBinary bs

/-- Source `writeMapHeader`: `Map8` when `elements < math.MaxUint8`
(that is, < 255) writing the code byte and then `uint8(elements)` — no
declared-size byte is emitted — else `Map32` with a four-byte big-endian
element count. -/
def writeMapHeader (elements : Nat) : Except Err (List Nat) :=
  if elements < 255 then .ok [0xc1, elements % 256]
  else .ok (0xd1 :: be32 elements)

/-- Source `writeMapElement`: the key encoding then the value encoding. -/
def writeMapElement (key value : Val) : Except Err (List Nat) :=
  match marshal key with
  | .error e => .error e
  | .ok k =>
    match marshal value with
    | .error e => .error e
    | .ok v => .ok (k ++ v)

/-- A field handed to `marshalComposite` (source `marshalField`): the value
and the omit flag (field `omitted`). -/
structure marshalFieldT where
  value : Val
  omitted : Bool
deriving DecidableEq, Repr

/-- The field loop of `marshalComposite`: each non-omitted field is
marshalled into its index (errors abort), omitted fields stay `none`, and
`lastSetIdx` tracks the last index that was set (starting at −1). -/
def marshalFieldsAux : List marshalFieldT → Nat → Int → Except Err (List (Option (List Nat)) × Int)
  | [], _, last => .ok ([], last)
  | f :: rest, i, last =>
    if f.omitted then
      match marshalFieldsAux rest (i + 1) last with
      | .ok (raws, l) => .ok (none :: raws, l)
      | .error e => .error e
    else
      match marshal f.value with
      | .error e => .error e
      | .ok b =>
        match marshalFieldsAux rest (i + 1) (Int.ofNat i) with
        | .ok (raws, l) => .ok (some b :: raws, l)
        | .error e => .error e

/-- The list body emitted by `marshalComposite`: indices up to `lastSetIdx`
with no encoding become a single `Null` byte and the list is truncated to
`lastSetIdx + 1` entries (`rawFields[:lastSetIdx+1]`). -/
def compositeBody (fields : List marshalFieldT) : Except Err (List (List Nat)) :=
  match marshalFieldsAux fields 0 (-1) with
  | .error e => .error e
  | .ok (raws, last) =>
    .ok ((raws.take (last + 1).toNat).map (fun o => o.getD [0x40]))

/-- Source `marshalComposite`: the `0x00` prefix, the descriptor as a
small ulong (`SmallUlong` code plus `uint8(code)`), then the trimmed field
list through `writeList`. -/
def marshalComposite (code : Nat) (fields : List marshalFieldT) : Except Err (List Nat) :=
  match compositeBody fields with
  | .error e => .error e
  | .ok body =>
    match writeList body with
    | .error e => .error e
    | .ok bs => .ok ([0x00, 0x53, code % 256] ++ bs)

/-- Index of the last non-omitted field, written from the specification's
words ("`lastSetIdx` is the highest index of a non-omitted field", −1 when
every field is omitted); stated independently of the marshalling loop so
the loop can be proved against it. -/
def lastSetIdxSpec : List marshalFieldT → Int
  | [] => -1
  | f :: rest =>
    let r := lastSetIdxSpec rest
    if 0 ≤ r then r + 1
    else if f.omitted then -1 else 0

/-- Sink shapes routed by the source `unmarshal`'s type switch that this
development needs: pointers to `int`, the unsigned widths, `string`,
`Symbol`, `bool`, `time.Time` and `interface{}`.  A cell carries the value
currently stored through the pointer. -/
inductive USink where
  | uInt (v : Int)
  | uU64 (v : Nat)
  | uU32 (v : Nat)
  | uU16 (v : Nat)
  | uU8 (v : Nat)
  | uStr (s : List Nat)
  | uSym (s : List Nat)
  | uBool (b : Bool)
  | uTime (sec nsec : Int)
  | uAny (v : Option AnyVal)
deriving DecidableEq, Repr

/-- The body of the source `unmarshal` type switch: pick the reader for the
sink's kind and, on success, assign the (narrowed) value through the
pointer.  Errors — including the `errNull` sentinel — leave the cell
untouched because the assignment is skipped by the early return. -/
def unmarshalSinkRaw : USink → RM ByteRdr USink
  | .uInt _ => do
    let v ← readInt
    pure (.uInt v)
  | .uU64 _ => do
    let v ← readUint
    pure (.uU64 v)
  | .uU32 _ => do
    let v ← readUint
    pure (.uU32 (v % 2 ^ 32))
  | .uU16 _ => do
    let v ← readUint
    pure (.uU16 (v % 2 ^ 16))
  | .uU8 _ => do
    let v ← readUint
    pure (.uU8 (v % 2 ^ 8))
  | .uStr _ => do
    let v ← readString
    pure (.uStr v)
  | .uSym _ => do
    let v ← readString
    pure (.uSym v)
  | .uBool _ => do
    let v ← readBool
    pure (.uBool v)
  | .uTime _ _ => do
    let v ← readTimestamp
    pure (.uTime v.1 v.2)
  | .uAny _ => do
    let v ← readAny
    pure (.uAny v)

/-- Source `unmarshal` including its deferred recovery: if the selected
reader raised `errNull`, the result becomes `(null := true, err := nil)`
with the sink unchanged; otherwise the null flag is false. -/
def unmarshalSink (sink : USink) : RM ByteRdr (Bool × USink) := fun r =>
  match unmarshalSinkRaw sink r with
  | .ok s' r' => .ok (false, s') r'
  | .error .errNull r' => .ok (true, sink) r'
  | .error e r' => .error e r'

/-- Source `newMapReader`, up to the construction of the `mapReader`
struct: dispatch on `Map8` (one size byte) or `Map32` (four big-endian
size bytes), reject a declared size larger than the remaining bytes, then
read a single byte as the element count.  Returns the `limitReader` cap
(the declared size) and the count. -/
def newMapReader : RM ByteRdr (Nat × Nat) := do
  let b ← reader.readByte
  let n ←
    if b = 0x40 then throw Err.errNull
    else if b = 0xc1 then reader.readByte
    else if b = 0xd1 then do
      let bs ← reader.readFull 4
      pure (beVal bs)
    else throw (Err.msg "invalid map type")
  let rem ← reader.remLen
  if rem < n then throw .errInvalidLength
  else do
    let c ← reader.readByte
    pure (n, c)

/-- The `mr.more()`/`mr.next` loop of `mapAnyAny.unmarshal`, running on the
`limitReader`: while fewer than `count` elements were read, unmarshal a key
and a value through `readAny` (the `*interface{}` route), reject slice-kind
keys, and collect the pair.  `fuel` only bounds the recursion and is
instantiated with `count`, which dominates the iteration count. -/
def mapAnyAnyLoop : Nat → Nat → Nat → RM limitReader (List (Option AnyVal × Option AnyVal))
  | 0, _, _ => pure []
  | fuel + 1, count, readN =>
    if readN < count then do
      let k ← readAny
      let v ← readAny
      if (match k with | some (.aBin _) => true | _ => false) then
        throw (.msg "invalid map key")
      else do
        let rest ← mapAnyAnyLoop fuel count (readN + 2)
        pure ((k, v) :: rest)
    else pure []

/-- Source `mapAnyAny.unmarshal`: decode the map header via
`newMapReader`, then run the pair loop on a fresh `limitReader` capped at
the declared size; the outer reader continues from wherever the wrapped
buffer was left. -/
def mapAnyAnyUnmarshal : RM ByteRdr (List (Option AnyVal × Option AnyVal)) := do
  let p ← newMapReader
  fun s =>
    match mapAnyAnyLoop p.2 p.2 0 ⟨s, p.1, 0⟩ with
    | .ok pairs lr => .ok pairs lr.buf
    | .error e lr => .error e lr.buf

/-- The sink store for composite decoding: each composite field points at
one cell. -/
abbrev Store := List USink

/-- Null handlers of the source: `required` errors, the `default*`
handlers write the default value into their cell. -/
inductive nullHandlerT where
  | required (name : String)
  | defaultUint32 (idx : Nat) (v : Nat)
  | defaultUint16 (idx : Nat) (v : Nat)
  | defaultUint8 (idx : Nat) (v : Nat)
  | defaultSymbol (idx : Nat) (v : List Nat)
deriving DecidableEq, Repr

/-- Run a null handler against the store. -/
def applyNullHandler : nullHandlerT → Store → Except Err Store
  | .required name, _ => .error (.msg (name ++ " is required"))
  | .defaultUint32 idx v, st => .ok (st.set idx (.uU32 v))
  | .defaultUint16 idx v, st => .ok (st.set idx (.uU16 v))
  | .defaultUint8 idx v, st => .ok (st.set idx (.uU8 v))
  | .defaultSymbol idx v, st => .ok (st.set idx (.uSym v))

/-- Source `unmarshalField`: the sink (a store index here) and the
optional null handler. -/
structure unmarshalFieldT where
  idx : Nat
  handleNull : Option nullHandlerT
deriving DecidableEq, Repr

/-- Lift a reader computation to the composite state (reader plus sink
store). -/
def liftR {α : Type} (m : RM ByteRdr α) : RM (ByteRdr × Store) α := fun s =>
  match m s.1 with
  | .ok a b' => .ok a (b', s.2)
  | .error e b' => .error e (b', s.2)

/-- Unmarshal into the store cell at `idx`: the `unmarshal(r,
fields[i].field)` call of the composite loop. -/
def unmarshalStoreField (idx : Nat) : RM (ByteRdr × Store) Bool := fun s =>
  match s.2[idx]? with
  | none => .error (.msg "unable to unmarshal") s
  | some cell =>
    match unmarshalSink cell s.1 with
    | .ok (null, cell') r' => .ok null (r', s.2.set idx cell')
    | .error e r' => .error e (r', s.2)

/-- Run an optional null handler inside the composite state. -/
def runNullHandler (h : nullHandlerT) : RM (ByteRdr × Store) Unit := fun s =>
  match applyNullHandler h s.2 with
  | .ok st' => .ok () (s.1, st')
  | .error e => .error e s

/-- The `for i := 0; i < numFields; i++` loop of `unmarshalComposite`:
unmarshal each received field (wrapping its error), then call the null
handler when the field was null and a handler is set. -/
def umcLoop (fields : List unmarshalFieldT) : Nat → Nat → RM (ByteRdr × Store) Unit
  | _, 0 => pure ()
  | i, n + 1 => do
    match fields[i]? with
    | none => throw (.msg "unable to unmarshal")
    | some f => do
      let null ← fun s =>
        match unmarshalStoreField f.idx s with
        | .ok b s' => .ok b s'
        | .error _ s' => .error (Err.msg ("unmarshaling field " ++ toString i)) s'
      (match f.handleNull with
       | some h => if null then runNullHandler h else pure ()
       | none => pure ())
      umcLoop fields (i + 1) n

/-- The trailing loop of `unmarshalComposite`: the null handler of every
field past the received count is invoked (defaults for absent fields). -/
def umcTail : List unmarshalFieldT → RM (ByteRdr × Store) Unit
  | [] => pure ()
  | f :: rest => do
    (match f.handleNull with
     | some h => runNullHandler h
     | none => pure ())
    umcTail rest

/-- Source `unmarshalComposite`: read the composite header, reject a
descriptor different from the expected one, reject a declared field count
exceeding the schema length, then run the field loop and the trailing
null-handler loop. -/
def unmarshalComposite (typ : Nat) (fields : List unmarshalFieldT) :
    RM (ByteRdr × Store) Unit := do
  let p ← liftR readCompositeHeader
  if p.1 ≠ typ then throw (.msg "invalid header")
  else if fields.length < p.2 then throw (.msg "invalid field count")
  else do
    umcLoop fields 0 p.2
    umcTail (fields.drop p.2)

/-! ## Theorems about the claims -/

/-- The encoding of the map `{"a": true, "b": false}` exactly as the claim
describes its construction: `writeMapHeader` with element count 4 followed
by the two key/value pairs through `writeMapElement`. -/
def mapABEncoding : Except Err (List Nat) :=
  match writeMapHeader 4 with
  | .error e => .error e
  | .ok h =>
    match writeMapElement (.vstr [0x61]) (.vbool true) with
    | .error e => .error e
    | .ok e1 =>
      match writeMapElement (.vstr [0x62]) (.vbool false) with
      | .error e => .error e
      | .ok e2 => .ok (h ++ e1 ++ e2)

/-- C1, counterexample: encoding `{"a": true, "b": false}` through
`writeMapHeader`/`writeMapElement` yields `c1 04 a1 01 61 41 a1 01 62 42`,
which is not the claimed `c1 0b 04 a1 01 61 41 a1 01 62 42` —
`writeMapHeader` emits no declared-size byte at all. -/
theorem c1_counterexample :
    mapABEncoding = .ok [0xc1, 0x04, 0xa1, 0x01, 0x61, 0x41, 0xa1, 0x01, 0x62, 0x42] ∧
    ([0xc1, 0x04, 0xa1, 0x01, 0x61, 0x41, 0xa1, 0x01, 0x62, 0x42] : List Nat) ≠
      [0xc1, 0x0b, 0x04, 0xa1, 0x01, 0x61, 0x41, 0xa1, 0x01, 0x62, 0x42] :=
  ⟨rfl, by decide⟩

/-- C1, amended: encoding the two-entry map `{"a": true, "b": false}` via
the map writer (`writeMapHeader` with element count 4, then the key/value
pairs via `writeMapElement`) produces exactly the bytes
`c1 04 a1 01 61 41 a1 01 62 42`: the `Map8` type code, a one-byte element
count of 4 (no declared-size byte is written), then alternating key and
value encodings. -/
theorem c1_amended :
    mapABEncoding = .ok [0xc1, 0x04, 0xa1, 0x01, 0x61, 0x41, 0xa1, 0x01, 0x62, 0x42] ∧
    writeMapHeader 4 = .ok [0xc1, 0x04] :=
  ⟨rfl, rfl⟩

/-- C3, code bug: a `Map8` declaring byte size 5 whose four elements
occupy 7 bytes (`50 07 50 07 50 07 43`) decodes successfully — no
limit-reached error — because every byte of these entries is consumed via
`ReadByte`, which the `limitReader` does not intercept. -/
theorem c3_bug_eval :
    mapAnyAnyUnmarshal [0xc1, 0x05, 0x04, 0x50, 0x07, 0x50, 0x07, 0x50, 0x07, 0x43] =
      .ok [(some (.aUint 7), some (.aUint 7)), (some (.aUint 7), some (.aUint 0))] [] ∧
    ([0x50, 0x07, 0x50, 0x07, 0x50, 0x07, 0x43] : List Nat).length = 7 ∧ 5 < 7 :=
  ⟨rfl, rfl, by decide⟩

/-- C4, code bug: decoding the timestamp `83 ff ff ff ff ff ff ff ff`
(millisecond count −1 as a signed 64-bit value) yields the instant
+615 milliseconds after the epoch instead of −1 millisecond, because the
remainder is computed on the unsigned `uint64`. -/
theorem c4_bug_eval :
    readTimestamp (ρ := ByteRdr)
        [0x83, 0xff, 0xff, 0xff, 0xff, 0xff, 0xff, 0xff, 0xff] =
      .ok (0, 615000000) [] ∧
    toInt64 (beVal [0xff, 0xff, 0xff, 0xff, 0xff, 0xff, 0xff, 0xff]) = -1 ∧
    instantNs (0, 615000000) ≠ (-1) * 1000000 :=
  ⟨rfl, by decide, by decide⟩

/-- C5: for every unsigned-width sink and every prior sink value, the
top-level unmarshal on input starting with the `Null` code `0x40` returns
`(null := true, err := nil)`, consumes only that byte, and leaves the sink
value unchanged. -/
theorem c5_null_uint_sinks (x : Nat) (rest : List Nat) :
    unmarshalSink (.uU8 x) (0x40 :: rest) = .ok (true, .uU8 x) rest ∧
    unmarshalSink (.uU16 x) (0x40 :: rest) = .ok (true, .uU16 x) rest ∧
    unmarshalSink (.uU32 x) (0x40 :: rest) = .ok (true, .uU32 x) rest ∧
    unmarshalSink (.uU64 x) (0x40 :: rest) = .ok (true, .uU64 x) rest :=
  ⟨rfl, rfl, rfl, rfl⟩

/-- C10: for a dynamic `interface{}` sink, the `Null` code `0x40` is
consumed by `readAny`, the unmarshal returns `err = nil` with
`null = false` (the sentinel is not raised), and a nil value is stored in
the sink. -/
theorem c10_null_any_sink (v : Option AnyVal) (rest : List Nat) :
    unmarshalSink (.uAny v) (0x40 :: rest) = .ok (false, .uAny none) rest :=
  rfl

set_option maxRecDepth 10000 in
/-- C2, counterexample: a list of 255 one-byte fields (total payload 255)
is written with the `List8` code but its size byte is `uint8(255 + 1) = 0`,
which does not equal the 256 bytes that follow it; and for an 8-bit array
the size byte (here 2) is one short of the bytes that follow it (count
byte, element-type byte, elements — here 3). -/
theorem c2_counterexample :
    writeSlice false 0 (List.replicate 255 [0x40]) =
      .ok (0xc0 :: 0 :: 255 :: List.replicate 255 0x40) ∧
    (255 :: List.replicate 255 (0x40 : Nat)).length ≠ 0 ∧
    writeSlice true 0xa3 [[0x00]] = .ok [0xe0, 0x02, 0x01, 0xa3, 0x00] ∧
    ([0x01, 0xa3, 0x00] : List Nat).length ≠ 2 :=
  ⟨rfl, by simp, rfl, by decide⟩

/-- C2, amended: whenever the slice writer picks the 8-bit variant
(element count in 1..255, payload < 256) it writes the size byte
`(payload + 1) % 256` followed by the count byte, for arrays the element
type code, and the element bytes.  When `payload < 255` that size byte
equals `payload + 1`, which for plain lists equals the number of bytes
following the size byte; for arrays the bytes following the size byte are
`payload + 2` (the size byte excludes the element-type code byte).  At
`payload = 255` the 8-bit variant is still chosen and the size byte wraps
to 0. -/
theorem c2_amended (fields : List (List Nat)) (of : Nat)
    (hne : fields ≠ [])
    (hl : fields.length < 256)
    (hs : (fields.map List.length).sum < 256) :
    writeSlice false 0 fields =
      .ok ([0xc0, ((fields.map List.length).sum + 1) % 256, fields.length % 256] ++
        fields.flatten) ∧
    writeSlice true of fields =
      .ok ([0xe0, ((fields.map List.length).sum + 1) % 256, fields.length % 256, of % 256] ++
        fields.flatten) ∧
    ((fields.map List.length).sum < 255 →
      ((fields.map List.length).sum + 1) % 256 = (fields.map List.length).sum + 1 ∧
      (fields.length % 256 :: fields.flatten).length = (fields.map List.length).sum + 1 ∧
      (fields.length % 256 :: of % 256 :: fields.flatten).length =
        (fields.map List.length).sum + 2) ∧
    ((fields.map List.length).sum = 255 → ((fields.map List.length).sum + 1) % 256 = 0) := by
  have hne' : fields.length ≠ 0 := by simpa using hne
  refine ⟨?_, ?_, ?_, ?_⟩
  · simp [writeSlice, hne', hl, hs]
  · simp [writeSlice, hne', hl, hs]
  · intro h
    exact ⟨Nat.mod_eq_of_lt (by omega), by simp [List.length_flatten],
      by simp [List.length_flatten]⟩
  · intro h
    simp [h]

/-- C2, witness: the single-element list `[0x41]` exercises the amended
statement at a concrete input. -/
theorem c2_witness :
    writeSlice false 0 [[0x41]] = .ok [0xc0, 0x02, 0x01, 0x41] := by
  have h := c2_amended [[0x41]] 0xa3 (by decide) (by decide) (by decide)
  simpa using h.1

/-- Prepending an ASCII byte leaves UTF-8 validity of the tail. -/
theorem validUTF8_cons_ascii (a : Nat) (l : List Nat) (h : a < 0x80) :
    validUTF8 (a :: l) = validUTF8 l := by
  show validUTF8From [] (a :: l) = validUTF8From [] l
  rw [validUTF8From, if_pos h]

/-- An all-ASCII byte sequence is valid UTF-8. -/
theorem validUTF8_replicate (n a : Nat) (h : a < 0x80) :
    validUTF8 (List.replicate n a) = true := by
  induction n with
  | zero => rfl
  | succ k ih =>
    rw [List.replicate_succ, validUTF8_cons_ascii _ _ h]
    exact ih

/-- C7, counterexample: `writeString` errors on the one-byte string `ff`
(invalid UTF-8) although its length 1 is far below 2^32, and errors with
"too long" on a valid ASCII string of length 2^32 − 1 = 4294967295,
although that length is also below 2^32 — the claim admits errors only at
length ≥ 2^32. -/
theorem c7_counterexample :
    (writeString [0xff] = .error (.msg "not a valid UTF-8 string") ∧
      ([0xff] : List Nat).length < 2 ^ 32) ∧
    (writeString (List.replicate 4294967295 0x61) = .error (.msg "too long") ∧
      (List.replicate 4294967295 (0x61 : Nat)).length < 2 ^ 32) := by
  refine ⟨⟨rfl, by decide⟩, ?_, ?_⟩
  · have hv := validUTF8_replicate 4294967295 0x61 (by decide)
    have h1 : ¬ (List.replicate 4294967295 (0x61 : Nat)).length < 256 := by
      rw [List.length_replicate]
      decide
    have h2 : ¬ (List.replicate 4294967295 (0x61 : Nat)).length < 4294967295 := by
      rw [List.length_replicate]
      decide
    simp only [writeString, hv, Bool.not_true, Bool.false_eq_true, if_false, h1, h2, if_neg]
  · rw [List.length_replicate]
    decide

/-- C7, amended: `writeString` encodes every valid-UTF-8 string of length
< 256 with `Str8` and a one-byte length, every valid-UTF-8 string of
length in [256, 2^32 − 2] with `Str32` and a four-byte big-endian length,
and returns an error exactly when the string is not valid UTF-8 or its
length is at least `math.MaxUint32` = 2^32 − 1. -/
theorem c7_amended (s : List Nat) :
    (validUTF8 s = true → s.length < 256 → writeString s = .ok (0xa1 :: s.length :: s)) ∧
    (validUTF8 s = true → 256 ≤ s.length → s.length < 4294967295 →
      writeString s = .ok (0xb1 :: (be32 s.length ++ s))) ∧
    (validUTF8 s = false → writeString s = .error (.msg "not a valid UTF-8 string")) ∧
    (validUTF8 s = true → 4294967295 ≤ s.length →
      writeString s = .error (.msg "too long")) := by
  refine ⟨?_, ?_, ?_, ?_⟩
  · intro hv hl
    simp [writeString, hv, hl, Nat.mod_eq_of_lt hl]
  · intro hv hl hu
    have h1 : ¬ s.length < 256 := by omega
    simp [writeString, hv, h1, hu]
  · intro hv
    simp [writeString, hv]
  · intro hv hl
    have h1 : ¬ s.length < 256 := by omega
    have h2 : ¬ s.length < 4294967295 := by omega
    simp [writeString, hv, h1, h2]

/-- C7, witness: the amended statement applied at the concrete strings
"a", the 256-byte ASCII string, `80` (invalid UTF-8) and the ASCII string
of length 2^32 − 1. -/
theorem c7_witness :
    writeString [0x61] = .ok [0xa1, 1, 0x61] ∧
    writeString (List.replicate 256 0x61) =
      .ok (0xb1 :: (be32 (List.replicate 256 (0x61 : Nat)).length ++
        List.replicate 256 0x61)) ∧
    writeString [0x80] = .error (.msg "not a valid UTF-8 string") ∧
    writeString (List.replicate 4294967295 0x61) = .error (.msg "too long") := by
  refine ⟨?_, ?_, ?_, ?_⟩
  · simpa using (c7_amended [0x61]).1 (by decide) (by decide)
  · exact (c7_amended _).2.1 (validUTF8_replicate 256 0x61 (by decide))
      (by rw [List.length_replicate]) (by rw [List.length_replicate]; decide)
  · exact (c7_amended [0x80]).2.2.1 (by decide)
  · exact (c7_amended _).2.2.2 (validUTF8_replicate 4294967295 0x61 (by decide))
      (by rw [List.length_replicate])

/-- The value of `lastSetIdxSpec` is at least −1. -/
theorem lastSetIdxSpec_ge (fields : List marshalFieldT) : -1 ≤ lastSetIdxSpec fields := by
  induction fields with
  | nil => simp [lastSetIdxSpec]
  | cons f rest ih =>
    simp only [lastSetIdxSpec]
    split
    · omega
    · split <;> omega

/-- The value of `lastSetIdxSpec` is below the field count. -/
theorem lastSetIdxSpec_lt (fields : List marshalFieldT) :
    lastSetIdxSpec fields < fields.length := by
  induction fields with
  | nil => simp [lastSetIdxSpec]
  | cons f rest ih =>
    simp only [lastSetIdxSpec, List.length_cons]
    split
    · push_cast
      omega
    · split <;> push_cast <;> omega

/-- The field loop of `marshalComposite` returns one raw slot per field
and computes `lastSetIdx` as the start index plus the highest non-omitted
index (or the incoming accumulator when every field is omitted), provided
every non-omitted field marshals successfully. -/
theorem marshalFieldsAux_ok (fields : List marshalFieldT) :
    ∀ (i : Nat) (last : Int),
    (∀ f ∈ fields, f.omitted = false → ∃ bs, marshal f.value = .ok bs) →
    ∃ raws, marshalFieldsAux fields i last =
        .ok (raws,
          if 0 ≤ lastSetIdxSpec fields then (i : Int) + lastSetIdxSpec fields else last) ∧
      raws.length = fields.length := by
  induction fields with
  | nil =>
    intro i last _
    exact ⟨[], by simp [marshalFieldsAux, lastSetIdxSpec], rfl⟩
  | cons f rest ih =>
    intro i last hall
    by_cases ho : f.omitted
    · obtain ⟨raws, hr, hlen⟩ :=
        ih (i + 1) last (fun g hg => hall g (List.mem_cons_of_mem _ hg))
      refine ⟨none :: raws, ?_, by simp [hlen]⟩
      simp only [marshalFieldsAux, ho, if_true, hr]
      by_cases h0 : 0 ≤ lastSetIdxSpec rest
      · have h1 : (0 : Int) ≤ lastSetIdxSpec rest + 1 := by omega
        simp [lastSetIdxSpec, ho, h0, h1]
        ring
      · simp [lastSetIdxSpec, ho, h0]
    · have hmf : f.omitted = false := by simpa using ho
      obtain ⟨bs, hbs⟩ := hall f (List.mem_cons_self f rest) hmf
      obtain ⟨raws, hr, hlen⟩ :=
        ih (i + 1) (Int.ofNat i) (fun g hg => hall g (List.mem_cons_of_mem _ hg))
      refine ⟨some bs :: raws, ?_, by simp [hlen]⟩
      simp only [marshalFieldsAux, hmf, Bool.false_eq_true, if_false, hbs, hr]
      by_cases h0 : 0 ≤ lastSetIdxSpec rest
      · have h1 : (0 : Int) ≤ lastSetIdxSpec rest + 1 := by omega
        simp [lastSetIdxSpec, hmf, h0, h1]
        ring
      · simp [lastSetIdxSpec, hmf, h0]

/-- C6: (general part) whenever every non-omitted field marshals, the list
body emitted by `marshalComposite` has exactly `lastSetIdx + 1` elements,
`lastSetIdx` being the highest non-omitted index; (instance) for a 5-field
schema with fields 0 and 2 set and 1, 3, 4 omitted the body is exactly
`[enc(field 0), Null byte, enc(field 2)]` — nothing for fields 3 and 4. -/
theorem c6_composite_trim :
    (∀ fields : List marshalFieldT,
      (∀ f ∈ fields, f.omitted = false → ∃ bs, marshal f.value = .ok bs) →
      ∃ body, compositeBody fields = .ok body ∧
        (body.length : Int) = lastSetIdxSpec fields + 1) ∧
    (∀ v0 v1 v2 v3 v4 b0 b2, marshal v0 = .ok b0 → marshal v2 = .ok b2 →
      compositeBody [⟨v0, false⟩, ⟨v1, true⟩, ⟨v2, false⟩, ⟨v3, true⟩, ⟨v4, true⟩] =
        .ok [b0, [0x40], b2]) := by
  constructor
  · intro fields hall
    obtain ⟨raws, hr, hlen⟩ := marshalFieldsAux_ok fields 0 (-1) hall
    have hge := lastSetIdxSpec_ge fields
    have hlt := lastSetIdxSpec_lt fields
    by_cases h0 : 0 ≤ lastSetIdxSpec fields
    · refine ⟨(raws.take (lastSetIdxSpec fields + 1).toNat).map (fun o => o.getD [0x40]), ?_, ?_⟩
      · simp only [compositeBody, hr]
        rw [if_pos h0]
        simp
      · simp only [List.length_map, List.length_take, hlen]
        omega
    · have hm1 : lastSetIdxSpec fields = -1 := by omega
      refine ⟨[], ?_, by simp [hm1]⟩
      simp only [compositeBody, hr]
      rw [if_neg h0]
      simp
  · intro v0 v1 v2 v3 v4 b0 b2 h0 h2
    simp [compositeBody, marshalFieldsAux, h0, h2]

/-- C6, witness: the 5-field schema with a boolean in field 0 and a
`uint8` in field 2 produces the three-element body. -/
theorem c6_witness :
    compositeBody [⟨.vbool true, false⟩, ⟨.vu8 0, true⟩, ⟨.vu8 7, false⟩,
      ⟨.vu8 0, true⟩, ⟨.vu8 0, true⟩] = .ok [[0x41], [0x40], [0x50, 0x07]] :=
  c6_composite_trim.2 (.vbool true) (.vu8 0) (.vu8 7) (.vu8 0) (.vu8 0)
    [0x41] [0x50, 0x07] rfl rfl


/-- Stepping lemma: a bound reader computation after a successful first
step. -/
theorem RM.bind_apply_ok {σ α β : Type} {x : RM σ α} {f : α → RM σ β} {s s' : σ} {a : α}
    (hx : x s = .ok a s') : (x >>= f) s = f a s' := by
  show EStateM.bind x f s = f a s'
  simp only [EStateM.bind]
  rw [hx]

/-- Stepping lemma: a bound reader computation after a failing first
step. -/
theorem RM.bind_apply_error {σ α β : Type} {x : RM σ α} {f : α → RM σ β} {s s' : σ}
    {e : Err} (hx : x s = .error e s') : (x >>= f) s = .error e s' := by
  show EStateM.bind x f s = EStateM.Result.error e s'
  simp only [EStateM.bind]
  rw [hx]

/-- A successful `ReadByte` on a byte buffer pops exactly the head. -/
theorem byteRdr_readByte_ok {s s' : ByteRdr} {b : Nat}
    (h : (reader.readByte : RM ByteRdr Nat) s = .ok b s') : s = b :: s' := by
  cases s with
  | nil => exact absurd h (by simp [reader.readByte, byteRdrReader])
  | cons x r =>
    have h' : EStateM.Result.ok x r = EStateM.Result.ok b s' := h
    cases h'
    rfl

/-- A successful `ReadFull` on a byte buffer splits it. -/
theorem byteRdr_readFull_ok {s s' : ByteRdr} {n : Nat} {bs : List Nat}
    (h : (reader.readFull n : RM ByteRdr (List Nat)) s = .ok bs s') :
    s = bs ++ s' ∧ bs.length = n := by
  by_cases hle : n ≤ s.length
  · have h' : (EStateM.Result.ok (s.take n) (s.drop n) :
        EStateM.Result Err ByteRdr (List Nat)) = EStateM.Result.ok bs s' := by
      simpa [reader.readFull, byteRdrReader, hle] using h
    cases h'
    refine ⟨(List.take_append_drop n s).symm, ?_⟩
    rw [List.length_take]
    omega
  · exact absurd h (by simp [reader.readFull, byteRdrReader, hle])

example : True := trivial


/-- C9: `newMapReader` reads the element count as a single byte for both
the `Map8` and the `Map32` header, so every successfully decoded map
header reports a count of at most 255; in particular after the four
big-endian size bytes of a `Map32` only the next single byte is consumed
as the count. -/
theorem c9_single_count_byte (buf rest : ByteRdr) (n c : Nat)
    (hwf : ∀ b ∈ buf, b < 256)
    (h : newMapReader buf = .ok (n, c) rest) :
    c ≤ 255 ∧
    (∀ b1 b2 b3 b4 cb tail, buf = [0xd1, b1, b2, b3, b4, cb] ++ tail →
      c = cb ∧ rest = tail) := by
  unfold newMapReader at h
  cases buf with
  | nil =>
    rw [RM.bind_apply_error
      (show (reader.readByte : RM ByteRdr Nat) [] = .error .errEOF [] from rfl)] at h
    exact EStateM.Result.noConfusion h
  | cons b0 r0 =>
    rw [RM.bind_apply_ok
      (show (reader.readByte : RM ByteRdr Nat) (b0 :: r0) = .ok b0 r0 from rfl)] at h
    beta_reduce at h
    by_cases h40 : b0 = 0x40
    · rw [if_pos h40, RM.bind_apply_error
        (show (throw Err.errNull : RM ByteRdr Nat) r0 = .error .errNull r0 from rfl)] at h
      exact EStateM.Result.noConfusion h
    · rw [if_neg h40] at h
      by_cases hc1 : b0 = 0xc1
      · rw [if_pos hc1] at h
        cases r0 with
        | nil =>
          rw [RM.bind_apply_error
            (show (reader.readByte : RM ByteRdr Nat) [] = .error .errEOF [] from rfl)] at h
          exact EStateM.Result.noConfusion h
        | cons n1 r1 =>
          rw [RM.bind_apply_ok
            (show (reader.readByte : RM ByteRdr Nat) (n1 :: r1) = .ok n1 r1 from rfl)] at h
          rw [RM.bind_apply_ok
            (show (reader.remLen : RM ByteRdr Nat) r1 = .ok r1.length r1 from rfl)] at h
          by_cases hlt : r1.length < n1
          · rw [if_pos hlt] at h
            exact EStateM.Result.noConfusion h
          · rw [if_neg hlt] at h
            cases r1 with
            | nil =>
              rw [RM.bind_apply_error
                (show (reader.readByte : RM ByteRdr Nat) [] = .error .errEOF [] from rfl)] at h
              exact EStateM.Result.noConfusion h
            | cons c0 r2 =>
              rw [RM.bind_apply_ok
                (show (reader.readByte : RM ByteRdr Nat) (c0 :: r2) = .ok c0 r2 from rfl)] at h
              have h' : EStateM.Result.ok (n1, c0) r2 =
                  (EStateM.Result.ok (n, c) rest : EStateM.Result Err ByteRdr (Nat × Nat)) := h
              cases h'
              constructor
              · have := hwf c (by simp)
                omega
              · intro b1 b2 b3 b4 cb tail heq
                rw [hc1] at heq
                simp at heq
      · rw [if_neg hc1] at h
        by_cases hd1 : b0 = 0xd1
        · rw [if_pos hd1] at h
          by_cases hle : 4 ≤ r0.length
          · rw [RM.bind_apply_ok (show (reader.readFull 4 : RM ByteRdr (List Nat)) r0 =
              .ok (r0.take 4) (r0.drop 4) from by
                simp [reader.readFull, byteRdrReader, hle])] at h
            rw [RM.bind_apply_ok (show (pure (beVal (r0.take 4)) : RM ByteRdr Nat)
              (r0.drop 4) = .ok (beVal (r0.take 4)) (r0.drop 4) from rfl)] at h
            rw [RM.bind_apply_ok (show (reader.remLen : RM ByteRdr Nat) (r0.drop 4) =
              .ok (r0.drop 4).length (r0.drop 4) from rfl)] at h
            by_cases hlt : (r0.drop 4).length < beVal (r0.take 4)
            · rw [if_pos hlt] at h
              exact EStateM.Result.noConfusion h
            · rw [if_neg hlt] at h
              cases hd : r0.drop 4 with
              | nil =>
                rw [hd, RM.bind_apply_error
                  (show (reader.readByte : RM ByteRdr Nat) [] = .error .errEOF [] from rfl)] at h
                exact EStateM.Result.noConfusion h
              | cons c0 r2 =>
                rw [hd, RM.bind_apply_ok
                  (show (reader.readByte : RM ByteRdr Nat) (c0 :: r2) = .ok c0 r2 from rfl)] at h
                have h' : EStateM.Result.ok (beVal (r0.take 4), c0) r2 =
                    (EStateM.Result.ok (n, c) rest : EStateM.Result Err ByteRdr (Nat × Nat)) := h
                cases h'
                constructor
                · have hmem : c ∈ r0 := by
                    have hsplit := List.take_append_drop 4 r0
                    rw [hd] at hsplit
                    rw [← hsplit]
                    exact List.mem_append_right _ (List.mem_cons_self _ _)
                  have := hwf c (List.mem_cons_of_mem _ hmem)
                  omega
                · intro b1 b2 b3 b4 cb tail heq
                  have hinj := heq
                  simp only [List.cons_append, List.nil_append, List.cons.injEq] at hinj
                  obtain ⟨-, hr0⟩ := hinj
                  subst hr0
                  simp only [List.drop_succ_cons, List.drop_zero] at hd
                  obtain ⟨hcb, htail⟩ := List.cons.inj hd.symm
                  exact ⟨hcb, htail⟩
          · rw [RM.bind_apply_error (show (reader.readFull 4 : RM ByteRdr (List Nat)) r0 =
              .error .errEOF [] from by simp [reader.readFull, byteRdrReader, hle])] at h
            exact EStateM.Result.noConfusion h
        · rw [if_neg hd1, RM.bind_apply_error
            (show (throw (Err.msg "invalid map type") : RM ByteRdr Nat) r0 =
              .error (.msg "invalid map type") r0 from rfl)] at h
          exact EStateM.Result.noConfusion h


/-- C9, witness: the `Map32` header `d1 00 00 00 02 09` followed by two
payload bytes parses with count 9, taken from the single byte after the
four size bytes, leaving exactly the two payload bytes unread. -/
theorem c9_witness :
    (9 : Nat) ≤ 255 ∧ (9 : Nat) = 9 ∧ ([1, 2] : ByteRdr) = [1, 2] :=
  ⟨(c9_single_count_byte [0xd1, 0, 0, 0, 2, 9, 1, 2] [1, 2] 2 9 (by decide) rfl).1,
   (c9_single_count_byte [0xd1, 0, 0, 0, 2, 9, 1, 2] [1, 2] 2 9 (by decide) rfl).2
     0 0 0 2 9 [1, 2] rfl⟩

/-- C8: whenever the composite header declares more fields than the
caller-supplied schema has, `unmarshalComposite` stops with an error
before the field loop, leaving every sink cell of the store unchanged. -/
theorem c8_unknown_fields (typ : Nat) (fields : List unmarshalFieldT)
    (buf rest : ByteRdr) (store : Store) (t nF : Nat)
    (hhdr : readCompositeHeader (ρ := ByteRdr) buf = .ok (t, nF) rest)
    (hcount : fields.length < nF) :
    unmarshalComposite typ fields (buf, store) =
      .error (if t ≠ typ then Err.msg "invalid header" else Err.msg "invalid field count")
        (rest, store) := by
  have hlift : liftR (readCompositeHeader (ρ := ByteRdr)) (buf, store) =
      .ok (t, nF) (rest, store) := by
    simp only [liftR, hhdr]
  by_cases ht : t = typ
  · rw [if_neg (not_not_intro ht)]
    unfold unmarshalComposite
    rw [RM.bind_apply_ok hlift]
    rw [if_neg (show ¬ ((t, nF).1 ≠ typ) by simpa using ht)]
    rw [if_pos (show fields.length < (t, nF).2 from hcount)]
    rfl
  · rw [if_pos ht]
    unfold unmarshalComposite
    rw [RM.bind_apply_ok hlift]
    rw [if_pos (show ((t, nF).1 ≠ typ) from ht)]
    rfl

/-- C8, witness: an `Open` composite (descriptor `0x10`) declaring two
fields against an empty schema errors with the field-count message, the
store untouched. -/
theorem c8_witness :
    unmarshalComposite 0x10 []
      ([0x00, 0x53, 0x10, 0xc0, 0x03, 0x02, 0x40, 0x40], ([.uU32 5] : Store)) =
      .error (.msg "invalid field count") ([0x40, 0x40], ([.uU32 5] : Store)) := by
  have h := c8_unknown_fields 0x10 [] [0x00, 0x53, 0x10, 0xc0, 0x03, 0x02, 0x40, 0x40]
    [0x40, 0x40] [.uU32 5] 0x10 2 rfl (by decide)
  simpa using h

end AMQP
